import Mathlib

set_option maxRecDepth 20000

/-!
Shallow embedding of the document-analysis pipeline implemented in
`src/services/openai.ts` of the `contextual` repository: splitting a
document into overlapping windows (`splitTextIntoChunks`), normalizing
the classifier's JSON payload and locating term spans (`analyzeChunk`),
merging duplicate terms (`mergeTerms`) and the driver (`analyzeText`).

Document text is modelled as `List Char`; the JavaScript numbers the
pipeline manipulates (offsets, confidences) are modelled as `Int`/`Nat`.
-/

/-- `AnalysisChunk` from `openai.ts`: one window of the document,
its text and its starting position in the full text. -/
structure AnalysisChunk where
  chunk : List Char
  startIndex : Nat
  deriving DecidableEq, Repr

/-- `CHUNK_SIZE` constant from `openai.ts`. -/
def CHUNK_SIZE : Nat := 3000

/-- `OVERLAP_SIZE` constant from `openai.ts`. -/
def OVERLAP_SIZE : Nat := 200

/-- The `while` loop of `splitTextIntoChunks`, with an explicit fuel
bounding the number of iterations.  Each iteration takes the window
`text.substring(startIndex, endIndex)` with
`endIndex = min(startIndex + chunkSize, text.length)`, stops after
pushing a window whose end reaches the end of the text, and otherwise
continues from `endIndex - overlapSize`.  When `overlapSize < chunkSize`
every iteration that recurses strictly advances `startIndex`, so
`text.length + 1` units of fuel are enough to reproduce the loop. -/
def splitChunksLoop (chunkSize overlapSize : Nat) (text : List Char) :
    Nat → Nat → List AnalysisChunk
  | 0, _ => []
  | fuel + 1, startIndex =>
    if startIndex < text.length then
      let endIndex := min (startIndex + chunkSize) text.length
      let c : AnalysisChunk := ⟨(text.drop startIndex).take (endIndex - startIndex), startIndex⟩
      if text.length ≤ endIndex then [c]
      else c :: splitChunksLoop chunkSize overlapSize text fuel (endIndex - overlapSize)
    else []

/-- `splitTextIntoChunks` generalized over the two configuration
constants (the spec treats them as tunables with reference values
3000 and 200). -/
def splitTextIntoChunksWith (chunkSize overlapSize : Nat) (text : List Char) :
    List AnalysisChunk :=
  splitChunksLoop chunkSize overlapSize text (text.length + 1) 0

/-- `splitTextIntoChunks` from `openai.ts`, at the configured constants. -/
def splitTextIntoChunks (text : List Char) : List AnalysisChunk :=
  splitTextIntoChunksWith CHUNK_SIZE OVERLAP_SIZE text

/-- Structured JSON-like values, modelling the result of `JSON.parse`
on the classifier's response content.  Object field lists represent
JavaScript objects, whose keys are distinct. -/
inductive JsonValue where
  | null
  | bool (b : Bool)
  | num (n : Int)
  | str (s : List Char)
  | arr (elems : List JsonValue)
  | obj (fields : List (List Char × JsonValue))

/-- JavaScript truthiness of a parsed JSON value: `null`, `false`, `0`
and the empty string are falsy, everything else is truthy. -/
def truthy : JsonValue → Bool
  | .null => false
  | .bool b => b
  | .num n => n != 0
  | .str s => !s.isEmpty
  | .arr _ => true
  | .obj _ => true

/-- Field lookup in an object's field list. -/
def lookupField : List (List Char × JsonValue) → List Char → Option JsonValue
  | [], _ => none
  | (k, v) :: rest, key => if k = key then some v else lookupField rest key

/-- JavaScript property access `v.key` on a parsed JSON value: `none`
models `undefined` (also for non-object receivers, whose property
access yields `undefined`; access on `null` throws and is handled at
the use sites before calling this). -/
def jLookup (v : JsonValue) (key : List Char) : Option JsonValue :=
  match v with
  | .obj fields => lookupField fields key
  | _ => none

/-- JavaScript `x || d` for an optionally-present property value `x`:
the value itself if present and truthy, otherwise the default `d`. -/
def jsOr (x : Option JsonValue) (d : JsonValue) : JsonValue :=
  match x with
  | some v => if truthy v then v else d
  | none => d

/-- JavaScript `term.confidence || 0`.  A present numeric value is kept
(a numeric `0` is falsy, so it still yields `0`); an absent or falsy
value yields `0`.  A truthy non-numeric confidence lies outside the
classifier's structured contract and is mapped to `0` here — a
modelling boundary that no theorem below depends on. -/
def jsConfidence (x : Option JsonValue) : Int :=
  match x with
  | some (.num n) => n
  | _ => 0

/-- `String.prototype.toLowerCase`, character-wise via `Char.toLower`
(agrees with JavaScript on ASCII text). -/
def lowerStr (s : List Char) : List Char := s.map Char.toLower

/-- First index at which `needle` occurs as a contiguous run inside
`hay`, scanning left to right. -/
def firstMatch (hay needle : List Char) : Option Nat :=
  match hay with
  | [] => if needle.isPrefixOf ([] : List Char) then some 0 else none
  | c :: t =>
    if needle.isPrefixOf (c :: t) then some 0
    else (firstMatch t needle).map (· + 1)

/-- `String.prototype.indexOf`: index of the first occurrence of the
needle, `-1` when it does not occur. -/
def jsIndexOf (hay needle : List Char) : Int :=
  match firstMatch hay needle with
  | some i => (i : Int)
  | none => -1

/-- The span-locator line of `analyzeChunk`:
`chunk.toLowerCase().indexOf(termText.toLowerCase())`. -/
def locateTermIndex (chunk termText : List Char) : Int :=
  jsIndexOf (lowerStr chunk) (lowerStr termText)

/-- `AmbiguousTerm` from `openai.ts`.  `term` is a string (the code
calls `toLowerCase()` and `.length` on it, so a truthy non-string
`term` field throws before any record is built); `context`,
`possible_meanings` and `likely_intended_meaning` are stored verbatim
from the raw record, so they are kept as JSON values. -/
structure AmbiguousTerm where
  term : List Char
  context : JsonValue
  position_start : Int
  position_end : Int
  possible_meanings : JsonValue
  likely_intended_meaning : JsonValue
  confidence : Int

/-- The line `const termText = term.term || ''` of `analyzeChunk`,
together with the fact that the following `termText.toLowerCase()`
throws when the `term` field is truthy but not a string: a present
string is kept (an empty one already coincides with the `|| ''`
default), a missing or falsy field gives the empty string, and a truthy
non-string gives the error that the surrounding `try` catches. -/
def termTextProp (r : JsonValue) : Except Unit (List Char) :=
  match jLookup r ("term".data) with
  | some (.str s) => .ok s
  | some v => if truthy v then .error () else .ok []
  | none => .ok []

/-- The record literal built by the `terms.map(...)` callback of
`analyzeChunk` for one raw record `r`, given the already extracted
`termText`. -/
def buildTerm (chunk : List Char) (startIndex : Nat) (r : JsonValue)
    (termText : List Char) : AmbiguousTerm :=
  let termIndex := locateTermIndex chunk termText
  { term := termText
    context := jsOr (jLookup r ("context".data)) (.str [])
    position_start := (startIndex : Int) + termIndex
    position_end := (startIndex : Int) + termIndex + termText.length
    possible_meanings := jsOr (jLookup r ("possible_meanings".data)) (.arr [])
    likely_intended_meaning :=
      jsOr (jLookup r ("likely_intended_meaning".data))
        (jsOr (jLookup r ("likely_meaning".data)) (.str []))
    confidence := jsConfidence (jLookup r ("confidence".data)) }

/-- The body of the `terms.map(...)` callback in `analyzeChunk`,
building one `AmbiguousTerm` from one raw record.  `.error ()` models a
thrown `TypeError` (property access on a `null` record, or
`toLowerCase()` on a truthy non-string `term` field); the surrounding
`try` turns such a throw into zero terms for the whole chunk. -/
def mapRawTerm (chunk : List Char) (startIndex : Nat) (r : JsonValue) :
    Except Unit AmbiguousTerm :=
  match r with
  | .null => .error ()
  | _ => (termTextProp r).map (buildTerm chunk startIndex r)

/-- The response-shape handling of `analyzeChunk`: a top-level array is
the record list; otherwise a `terms` or then `ambiguous_terms` field
holding an array is used; otherwise an object with a truthy `term`
field is a single record; any other shape yields no records.  Property
access on a parsed `null` throws (`.error ()`), landing in the `catch`
branch. -/
def extractRecords : JsonValue → Except Unit (List JsonValue)
  | .arr xs => .ok xs
  | .null => .error ()
  | parsed =>
    .ok <|
      match jLookup parsed ("terms".data) with
      | some (.arr xs) => xs
      | _ =>
        match jLookup parsed ("ambiguous_terms".data) with
        | some (.arr xs) => xs
        | _ =>
          match jLookup parsed ("term".data) with
          | some v => if truthy v then [parsed] else []
          | none => []

/-- Console diagnostics emitted by `analyzeChunk`. -/
inductive LogEvent where
  | warnEmptyResponse
  | errorParseFailure
  deriving DecidableEq, Repr

/-- The response-processing tail of `analyzeChunk`, from the extracted
message `content` onwards, paired with the console diagnostics it
emits.  The argument models the content: `none` is a null or empty
content (`console.warn`, zero terms); `some (.error ())` is content on
which `JSON.parse` throws (`console.error` in the `catch`, zero terms);
`some (.ok parsed)` is successfully parsed content, which runs the
shape handling and the record mapping inside the same `try`. -/
def processResponse (chunk : List Char) (startIndex : Nat)
    (content : Option (Except Unit JsonValue)) :
    List AmbiguousTerm × List LogEvent :=
  match content with
  | none => ([], [.warnEmptyResponse])
  | some (.error _) => ([], [.errorParseFailure])
  | some (.ok parsed) =>
    match extractRecords parsed >>= fun recs => recs.mapM (mapRawTerm chunk startIndex) with
    | .ok ts => (ts, [])
    | .error _ => ([], [.errorParseFailure])

/-- `Map.prototype.get` on an insertion-ordered association list. -/
def assocGet : List (List Char × AmbiguousTerm) → List Char → Option AmbiguousTerm
  | [], _ => none
  | (k, v) :: rest, key => if k = key then some v else assocGet rest key

/-- `Map.prototype.set`: replaces the value in place when the key is
present (keeping the original insertion position), else appends. -/
def assocSet : List (List Char × AmbiguousTerm) → List Char → AmbiguousTerm →
    List (List Char × AmbiguousTerm)
  | [], key, v => [(key, v)]
  | (k, w) :: rest, key, v =>
    if k = key then (k, v) :: rest else (k, w) :: assocSet rest key v

/-- The dedup key of `mergeTerms`: `term.term.toLowerCase()`. -/
def termKey (t : AmbiguousTerm) : List Char := lowerStr t.term

/-- One iteration of the `for` loop in `mergeTerms`: a new key is
inserted; an existing key is overwritten only by a strictly higher
confidence. -/
def mergeStep (m : List (List Char × AmbiguousTerm)) (t : AmbiguousTerm) :
    List (List Char × AmbiguousTerm) :=
  let key := termKey t
  match assocGet m key with
  | some existing => if t.confidence > existing.confidence then assocSet m key t else m
  | none => assocSet m key t

/-- Stable insertion into a list already sorted by ascending
`position_start`: the inserted element goes before strictly greater
positions and after equal ones. -/
def insertByPos (t : AmbiguousTerm) : List AmbiguousTerm → List AmbiguousTerm
  | [] => [t]
  | u :: rest =>
    if t.position_start ≤ u.position_start then t :: u :: rest
    else u :: insertByPos t rest

/-- The final sort of `mergeTerms`:
`sort((a, b) => a.position_start - b.position_start)`, a stable
ascending sort by `position_start`, as insertion sort. -/
def sortByPos : List AmbiguousTerm → List AmbiguousTerm
  | [] => []
  | t :: rest => insertByPos t (sortByPos rest)

/-- `mergeTerms` from `openai.ts`: deduplicate by lowercased term
(keeping the higher-confidence instance; strictly higher replaces, so
ties keep the first seen), then sort by `position_start`. -/
def mergeTerms (allTerms : List AmbiguousTerm) : List AmbiguousTerm :=
  sortByPos ((allTerms.foldl mergeStep []).map Prod.snd)

/-- Outcome of one classifier call for a window: either the awaited
API call itself throws (transport/auth/rate-limit failure), or it
returns a message whose content is modelled as in `processResponse`. -/
inductive ClassifierOutcome where
  | callError
  | response (content : Option (Except Unit JsonValue))

/-- `analyzeChunk` from `openai.ts` for a given classifier behaviour: a
thrown call error propagates out; otherwise the response content is
processed into the chunk's terms (console diagnostics are side
channel only and dropped here). -/
def analyzeChunk (classify : AnalysisChunk → ClassifierOutcome) (c : AnalysisChunk) :
    Except Unit (List AmbiguousTerm) :=
  match classify c with
  | .callError => .error ()
  | .response content => .ok (processResponse c.chunk c.startIndex content).1

/-- The terms one window contributes to a run whose classifier call
does not throw. -/
def chunkTerms (classify : AnalysisChunk → ClassifierOutcome) (c : AnalysisChunk) :
    List AmbiguousTerm :=
  match classify c with
  | .callError => []
  | .response content => (processResponse c.chunk c.startIndex content).1

/-- `analyzeText` from `openai.ts`: split the text into chunks, analyze
them sequentially (a thrown classifier call error aborts the whole
run), then merge the accumulated terms.  The progress callback has no
effect on the result and is not modelled. -/
def analyzeText (classify : AnalysisChunk → ClassifierOutcome) (text : List Char) :
    Except Unit (List AmbiguousTerm) :=
  ((splitTextIntoChunks text).mapM (analyzeChunk classify)).map
    fun results => mergeTerms results.flatten

/-- The JavaScript condition `x && Array.isArray(x)` for an optional
property value, as used in the shape handling of `analyzeChunk`. -/
def isArrayProp : Option JsonValue → Bool
  | some (.arr _) => true
  | _ => false

/-- JavaScript truthiness of an optional property value (`undefined`
is falsy), as used in the `parsed.term` shape test of `analyzeChunk`. -/
def truthyProp : Option JsonValue → Bool
  | some v => truthy v
  | none => false

/-- Detection of the term "cell" at absolute offset 2900 with
confidence 70, as reported from window 1 of the end-to-end scenario. -/
def cellDetection70 : AmbiguousTerm :=
  { term := "cell".data, context := .str [], position_start := 2900,
    position_end := 2904, possible_meanings := .arr [],
    likely_intended_meaning := .str [], confidence := 70 }

/-- The duplicate "cell" detection from window 2, confidence 90. -/
def cellDetection90 : AmbiguousTerm :=
  { cellDetection70 with confidence := 90 }

/-- The `{term:"Force", confidence:60, positionStart:10}` Term of the
merge-dedup scenario. -/
def forceDetection60 : AmbiguousTerm :=
  { term := "Force".data, context := .str [], position_start := 10,
    position_end := 15, possible_meanings := .arr [],
    likely_intended_meaning := .str [], confidence := 60 }

/-- The `{term:"force", confidence:85, positionStart:1500}` Term of the
merge-dedup scenario. -/
def forceDetection85 : AmbiguousTerm :=
  { term := "force".data, context := .str [], position_start := 1500,
    position_end := 1505, possible_meanings := .arr [],
    likely_intended_meaning := .str [], confidence := 85 }

/-- Selector following the spec's merge wording (for comparison with
`mergeTerms`, not taken from the code): scanning the input in order,
the first Term carrying the key is kept and is replaced only by a
strictly higher-confidence later Term — so the survivor is the
first-seen among those of maximal confidence. -/
def firstBest (input : List AmbiguousTerm) (key : List Char) : Option AmbiguousTerm :=
  input.foldl
    (fun acc t =>
      if termKey t = key then
        match acc with
        | none => some t
        | some e => if t.confidence > e.confidence then some t else acc
      else acc)
    none

/-! ## Helper lemmas -/

theorem splitChunksLoop_succ (cs os : Nat) (text : List Char) (fuel s : Nat) :
    splitChunksLoop cs os text (fuel + 1) s =
      if s < text.length then
        if text.length ≤ min (s + cs) text.length then
          [⟨(text.drop s).take (min (s + cs) text.length - s), s⟩]
        else ⟨(text.drop s).take (min (s + cs) text.length - s), s⟩ ::
          splitChunksLoop cs os text fuel (min (s + cs) text.length - os)
      else [] := rfl

/-! ## Claim theorems -/

/-- C1: a 7000-character document, split with chunk size 3000 and
overlap 200, yields exactly the three windows `[0,3000)`, `[2800,5800)`
and `[5600,7000)`; and merging the two "cell" detections reported from
windows 1 and 2 (confidences 70 and 90) leaves exactly one "cell"
entry, the one carrying confidence 90. -/
theorem C1_end_to_end_scenario :
    (splitTextIntoChunks (List.replicate 7000 'a')).map
        (fun c => (c.startIndex, c.startIndex + c.chunk.length)) =
      [(0, 3000), (2800, 5800), (5600, 7000)] ∧
    mergeTerms [cellDetection70, cellDetection90] = [cellDetection90] := by
  constructor
  · have hlen : (List.replicate 7000 'a').length = 7000 := List.length_replicate 7000 'a'
    rw [splitTextIntoChunks, splitTextIntoChunksWith, hlen, CHUNK_SIZE, OVERLAP_SIZE]
    rw [splitChunksLoop_succ, hlen]
    norm_num
    rw [show (7000 : Nat) = 6999 + 1 by norm_num, splitChunksLoop_succ, hlen]
    norm_num
    rw [show (6999 : Nat) = 6998 + 1 by norm_num, splitChunksLoop_succ, hlen]
    norm_num [List.length_take, List.length_drop, hlen]
  · rfl

/-- C5 (code bug in the source): a reported term whose surface form is
not found in its window is still emitted, but with
`position_start = startIndex + (-1)` and
`position_end = startIndex + (-1) + length` — fabricated plausible
offsets computed from the window's start offset (2799 and 2807 for a
window starting at 2800), not position markers recognizable as a
not-found signal. -/
theorem C5_not_found_offsets_fabricated :
    processResponse "hello world".data 2800
        (some (.ok (.obj [("term".data, .str "einstein".data),
                          ("confidence".data, .num 50)]))) =
      ([{ term := "einstein".data, context := .str [],
          position_start := 2799, position_end := 2807,
          possible_meanings := .arr [], likely_intended_meaning := .str [],
          confidence := 50 }], []) := rfl

/-- C9 counterexample: on the empty document the chunker produces zero
windows, not the single whole-document window the claim requires. -/
theorem C9_counterexample :
    splitTextIntoChunks ([] : List Char) = [] ∧
    splitTextIntoChunks ([] : List Char) ≠
      [{ chunk := [], startIndex := 0 }] := by
  refine ⟨rfl, ?_⟩
  decide

/-- C9 (amended): every nonempty document no longer than the chunk size
is split into exactly one window, the whole document at offset 0 (the
empty document instead yields no windows at all). -/
theorem C9_single_window (text : List Char) (hne : text ≠ [])
    (hle : text.length ≤ CHUNK_SIZE) :
    splitTextIntoChunks text = [{ chunk := text, startIndex := 0 }] := by
  have h0 : 0 < text.length := List.length_pos.mpr hne
  rw [splitTextIntoChunks, splitTextIntoChunksWith, splitChunksLoop_succ, if_pos h0]
  have hmin : min (0 + CHUNK_SIZE) text.length = text.length := by omega
  rw [hmin, if_pos (le_refl _)]
  simp

theorem C9_single_window_witness :
    "ab".data ≠ [] ∧ "ab".data.length ≤ CHUNK_SIZE ∧
    splitTextIntoChunks "ab".data = [{ chunk := "ab".data, startIndex := 0 }] :=
  ⟨by decide, by decide, C9_single_window "ab".data (by decide) (by decide)⟩

/-- C8 counterexample: a payload that parses as structured data but
matches no recognized shape (here `{"foo": 1}`) is swallowed silently —
zero terms and no diagnostic at all, rather than a reported parse
failure. -/
theorem C8_counterexample :
    processResponse "x".data 0 (some (.ok (.obj [("foo".data, .num 1)]))) =
      ([], []) := rfl

/-- C8 (amended): a payload that parses to an object matching none of
the recognized shapes yields zero terms silently, with no diagnostic;
only a payload that is not parseable as structured data at all is
reported (`console.error`) — and even that one is recovered as zero
terms rather than failing the window. -/
theorem C8_unrecognized_shape_silent (chunk : List Char) (start : Nat)
    (fs : List (List Char × JsonValue))
    (h1 : isArrayProp (lookupField fs ("terms".data)) = false)
    (h2 : isArrayProp (lookupField fs ("ambiguous_terms".data)) = false)
    (h3 : truthyProp (lookupField fs ("term".data)) = false) :
    processResponse chunk start (some (.ok (.obj fs))) = ([], []) ∧
    processResponse chunk start (some (.error ())) =
      ([], [.errorParseFailure]) := by
  refine ⟨?_, rfl⟩
  have he : extractRecords (.obj fs) = .ok [] := by
    show Except.ok
      (match jLookup (.obj fs) ("terms".data) with
       | some (.arr xs) => xs
       | _ =>
         match jLookup (.obj fs) ("ambiguous_terms".data) with
         | some (.arr xs) => xs
         | _ =>
           match jLookup (.obj fs) ("term".data) with
           | some v => if truthy v then [JsonValue.obj fs] else []
           | none => []) = .ok []
    show Except.ok
      (match lookupField fs ("terms".data) with
       | some (.arr xs) => xs
       | _ =>
         match lookupField fs ("ambiguous_terms".data) with
         | some (.arr xs) => xs
         | _ =>
           match lookupField fs ("term".data) with
           | some v => if truthy v then [JsonValue.obj fs] else []
           | none => []) = .ok []
    rcases hl1 : lookupField fs ("terms".data) with _ | v1
    · rcases hl2 : lookupField fs ("ambiguous_terms".data) with _ | v2
      · rcases hl3 : lookupField fs ("term".data) with _ | v3
        · rfl
        · rw [hl3] at h3
          simp only [truthyProp] at h3
          cases v3 <;> simp_all [truthy]
      · rw [hl2] at h2
        cases v2 <;> simp_all [isArrayProp] <;>
          rcases hl3 : lookupField fs ("term".data) with _ | v3 <;>
            first
              | rfl
              | (rw [hl3] at h3; simp only [truthyProp] at h3;
                 cases v3 <;> simp_all [truthy])
    · rw [hl1] at h1
      cases v1 <;> simp_all [isArrayProp] <;>
        rcases hl2 : lookupField fs ("ambiguous_terms".data) with _ | v2 <;>
        first
          | (rcases hl3 : lookupField fs ("term".data) with _ | v3 <;>
              first
                | rfl
                | (rw [hl3] at h3; simp only [truthyProp] at h3;
                   cases v3 <;> simp_all [truthy]))
          | (rw [hl2] at h2;
             cases v2 <;> simp_all [isArrayProp] <;>
               rcases hl3 : lookupField fs ("term".data) with _ | v3 <;>
                 first
                   | rfl
                   | (rw [hl3] at h3; simp only [truthyProp] at h3;
                      cases v3 <;> simp_all [truthy]))
  show (match extractRecords (JsonValue.obj fs) >>= fun recs =>
          recs.mapM (mapRawTerm chunk start) with
        | .ok ts => (ts, ([] : List LogEvent))
        | .error _ => ([], [.errorParseFailure])) = ([], [])
  rw [he]
  rfl

theorem C8_unrecognized_shape_silent_witness :
    (isArrayProp (lookupField [("foo".data, .num 1)] ("terms".data)) = false ∧
     isArrayProp (lookupField [("foo".data, .num 1)] ("ambiguous_terms".data)) = false ∧
     truthyProp (lookupField [("foo".data, .num 1)] ("term".data)) = false) ∧
    processResponse "x".data 0
        (some (.ok (.obj [("foo".data, .num 1)]))) = ([], []) ∧
    processResponse "x".data 0 (some (.error ())) =
      ([], [.errorParseFailure]) :=
  ⟨⟨rfl, rfl, rfl⟩,
    C8_unrecognized_shape_silent "x".data 0 [("foo".data, .num 1)] rfl rfl rfl⟩


theorem processResponse_ok (chunk : List Char) (start : Nat)
    (parsed : JsonValue) (recs : List JsonValue) (ts : List AmbiguousTerm)
    (h : extractRecords parsed = .ok recs)
    (h2 : recs.mapM (mapRawTerm chunk start) = .ok ts) :
    processResponse chunk start (some (.ok parsed)) = (ts, []) := by
  show (match extractRecords parsed >>= fun recs =>
          recs.mapM (mapRawTerm chunk start) with
        | .ok ts => (ts, ([] : List LogEvent))
        | .error _ => ([], [.errorParseFailure])) = (ts, [])
  rw [h]
  show (match recs.mapM (mapRawTerm chunk start) with
        | .ok ts => (ts, ([] : List LogEvent))
        | .error _ => ([], [.errorParseFailure])) = (ts, [])
  rw [h2]

theorem extractRecords_obj (fs : List (List Char × JsonValue))
    (h1 : isArrayProp (lookupField fs ("terms".data)) = false)
    (h2 : isArrayProp (lookupField fs ("ambiguous_terms".data)) = false) :
    extractRecords (.obj fs) =
      .ok (match lookupField fs ("term".data) with
           | some v => if truthy v then [JsonValue.obj fs] else []
           | none => []) := by
  simp only [extractRecords, jLookup]
  split
  · rename_i xs heq
    rw [heq] at h1
    simp [isArrayProp] at h1
  · split
    · rename_i xs heq
      rw [heq] at h2
      simp [isArrayProp] at h2
    · rfl

/-- C7 counterexample: for the raw record `{"term": ""}` — which does
have a `term` field — the wrapped shape `{"terms":[r]}` produces one
candidate while the bare shape `r` produces none (the `parsed.term`
shape test requires a truthy value, and the empty string is falsy), so
the four shapes are not interchangeable for every record with a `term`
field. -/
theorem C7_counterexample :
    (processResponse "x".data 0
        (some (.ok (.obj [("terms".data,
                           .arr [.obj [("term".data, .str [])]])])))).1.length = 1 ∧
    (processResponse "x".data 0
        (some (.ok (.obj [("term".data, .str [])])))).1.length = 0 :=
  ⟨rfl, rfl⟩

/-- C7 (amended): for a raw record `r` whose `term` field holds a
non-empty string (JavaScript-truthy, as the bare-object shape test
requires) and whose `terms`/`ambiguous_terms` fields, if any, are not
arrays, the payload shapes `{"terms":[r]}`, `{"ambiguous_terms":[r]}`,
`[r]` and bare `r` all produce the identical single candidate record. -/
theorem C7_shape_tolerance (chunk : List Char) (start : Nat)
    (fs : List (List Char × JsonValue)) (s : List Char)
    (h1 : isArrayProp (lookupField fs ("terms".data)) = false)
    (h2 : isArrayProp (lookupField fs ("ambiguous_terms".data)) = false)
    (h3 : lookupField fs ("term".data) = some (.str s))
    (hs : s ≠ []) :
    ∃ t : AmbiguousTerm,
      mapRawTerm chunk start (.obj fs) = .ok t ∧
      processResponse chunk start
        (some (.ok (.obj [("terms".data, .arr [.obj fs])]))) = ([t], []) ∧
      processResponse chunk start
        (some (.ok (.obj [("ambiguous_terms".data, .arr [.obj fs])]))) = ([t], []) ∧
      processResponse chunk start (some (.ok (.arr [.obj fs]))) = ([t], []) ∧
      processResponse chunk start (some (.ok (.obj fs))) = ([t], []) := by
  have hmap : mapRawTerm chunk start (.obj fs) =
      .ok (buildTerm chunk start (.obj fs) s) := by
    simp [mapRawTerm, termTextProp, jLookup, h3, Except.map]
  have hmapM : [JsonValue.obj fs].mapM (mapRawTerm chunk start) =
      .ok [buildTerm chunk start (.obj fs) s] := by
    rw [List.mapM_cons, hmap, List.mapM_nil]
    rfl
  have hse : s.isEmpty = false := by
    cases s
    · exact absurd rfl hs
    · rfl
  have he4 : extractRecords (.obj fs) = .ok [JsonValue.obj fs] := by
    rw [extractRecords_obj fs h1 h2, h3]
    simp [truthy, hse]
  exact ⟨buildTerm chunk start (.obj fs) s, hmap,
    processResponse_ok _ _ _ _ _ rfl hmapM,
    processResponse_ok _ _ _ _ _ rfl hmapM,
    processResponse_ok _ _ _ _ _ rfl hmapM,
    processResponse_ok _ _ _ _ _ he4 hmapM⟩

theorem C7_shape_tolerance_witness :
    (isArrayProp (lookupField [("term".data, .str "cell".data)] ("terms".data)) = false ∧
     isArrayProp (lookupField [("term".data, .str "cell".data)] ("ambiguous_terms".data)) = false ∧
     lookupField [("term".data, .str "cell".data)] ("term".data) =
       some (.str "cell".data) ∧
     "cell".data ≠ []) ∧
    ∃ t : AmbiguousTerm,
      mapRawTerm "a cell here".data 40
        (.obj [("term".data, .str "cell".data)]) = .ok t ∧
      processResponse "a cell here".data 40
        (some (.ok (.obj [("terms".data,
          .arr [.obj [("term".data, .str "cell".data)]])]))) = ([t], []) ∧
      processResponse "a cell here".data 40
        (some (.ok (.obj [("ambiguous_terms".data,
          .arr [.obj [("term".data, .str "cell".data)]])]))) = ([t], []) ∧
      processResponse "a cell here".data 40
        (some (.ok (.arr [.obj [("term".data, .str "cell".data)]]))) = ([t], []) ∧
      processResponse "a cell here".data 40
        (some (.ok (.obj [("term".data, .str "cell".data)]))) = ([t], []) :=
  ⟨⟨rfl, rfl, rfl, by decide⟩,
    C7_shape_tolerance "a cell here".data 40
      [("term".data, .str "cell".data)] "cell".data rfl rfl rfl (by decide)⟩

theorem span_length_of_map_ok (chunk : List Char) (start : Nat)
    (r : JsonValue) (t : AmbiguousTerm)
    (h : (termTextProp r).map (buildTerm chunk start r) = .ok t) :
    t.position_end - t.position_start = (t.term.length : Int) := by
  rcases htt : termTextProp r with e | s
  · rw [htt] at h
    simp [Except.map] at h
  · rw [htt] at h
    simp only [Except.map, Except.ok.injEq] at h
    subst h
    simp only [buildTerm]
    ring

/-- C10: every candidate Term the chunk analyzer emits from a raw
record satisfies `position_end - position_start = length(term)`, also
when the surface form was not found in the window (both offsets are
computed from the same `startIndex + termIndex` base). -/
theorem C10_span_length_invariant (chunk : List Char) (start : Nat)
    (r : JsonValue) (t : AmbiguousTerm)
    (h : mapRawTerm chunk start r = .ok t) :
    t.position_end - t.position_start = (t.term.length : Int) := by
  cases r <;> simp only [mapRawTerm] at h
  case null => exact Except.noConfusion h
  all_goals exact span_length_of_map_ok _ _ _ _ h

theorem C10_span_length_invariant_witness :
    ∃ t : AmbiguousTerm,
      mapRawTerm "no such word".data 7
        (.obj [("term".data, .str "cell".data)]) = .ok t ∧
      t.position_end - t.position_start = (t.term.length : Int) := by
  refine ⟨buildTerm "no such word".data 7
    (.obj [("term".data, .str "cell".data)]) "cell".data, rfl, ?_⟩
  exact C10_span_length_invariant "no such word".data 7
    (.obj [("term".data, .str "cell".data)]) _ rfl

theorem firstMatch_spec (needle : List Char) :
    ∀ (hay : List Char) (i : Nat), firstMatch hay needle = some i →
      needle.isPrefixOf (hay.drop i) = true ∧
      ∀ j, j < i → needle.isPrefixOf (hay.drop j) = false := by
  intro hay
  induction hay with
  | nil =>
    intro i h
    simp only [firstMatch] at h
    split at h
    · rename_i hpre
      cases h
      exact ⟨hpre, fun j hj => absurd hj (Nat.not_lt_zero j)⟩
    · exact Option.noConfusion h
  | cons c t ih =>
    intro i h
    simp only [firstMatch] at h
    split at h
    · rename_i hpre
      cases h
      exact ⟨hpre, fun j hj => absurd hj (Nat.not_lt_zero j)⟩
    · rename_i hpre
      rcases hm : firstMatch t needle with _ | i'
      · rw [hm] at h
        exact Option.noConfusion h
      · rw [hm] at h
        simp only [Option.map_some'] at h
        cases h
        obtain ⟨hp, hmin⟩ := ih i' hm
        refine ⟨by simpa using hp, ?_⟩
        intro j hj
        cases j with
        | zero =>
          simp only [List.drop_zero]
          exact Bool.not_eq_true _ ▸ Bool.of_not_eq_true hpre
        | succ j' =>
          simpa using hmin j' (by omega)

theorem firstMatch_none (needle : List Char) :
    ∀ hay : List Char, firstMatch hay needle = none →
      ∀ j, needle.isPrefixOf (hay.drop j) = false := by
  intro hay
  induction hay with
  | nil =>
    intro h j
    simp only [firstMatch] at h
    split at h
    · exact Option.noConfusion h
    · rename_i hpre
      rw [List.drop_nil]
      exact Bool.of_not_eq_true hpre
  | cons c t ih =>
    intro h j
    simp only [firstMatch] at h
    split at h
    · exact Option.noConfusion h
    · rename_i hpre
      rcases hm : firstMatch t needle with _ | i'
      · cases j with
        | zero =>
          simp only [List.drop_zero]
          exact Bool.of_not_eq_true hpre
        | succ j' =>
          simpa using ih hm j'
      · rw [hm] at h
        exact Option.noConfusion h

/-- C4: when a term occurs case-insensitively in a window's text, the
locator finds the first such occurrence, at relative index `i`:
`locateTermIndex` returns `i`, the lowered term is a prefix of the
lowered window text dropped by `i` and at no earlier index, and the
emitted candidate carries `position_start = startOffset + i` and
`position_end = position_start + length(term)`; moreover locating
"newton" and "Newton" over the same window text gives the same index. -/
theorem C4_locator_first_occurrence (chunk termText : List Char) (start : Nat)
    (h : ∃ j, (lowerStr termText).isPrefixOf ((lowerStr chunk).drop j) = true) :
    (∃ i : Nat,
       locateTermIndex chunk termText = (i : Int) ∧
       (lowerStr termText).isPrefixOf ((lowerStr chunk).drop i) = true ∧
       (∀ j, j < i →
         (lowerStr termText).isPrefixOf ((lowerStr chunk).drop j) = false) ∧
       ∃ t : AmbiguousTerm,
         mapRawTerm chunk start (.obj [("term".data, .str termText)]) = .ok t ∧
         t.position_start = (start : Int) + i ∧
         t.position_end = (start : Int) + i + termText.length) ∧
    ∀ c : List Char,
      locateTermIndex c ("newton".data) = locateTermIndex c ("Newton".data) := by
  constructor
  · rcases hm : firstMatch (lowerStr chunk) (lowerStr termText) with _ | i
    · exfalso
      obtain ⟨j, hj⟩ := h
      have := firstMatch_none _ _ hm j
      rw [hj] at this
      exact Bool.noConfusion this
    · obtain ⟨hp, hmin⟩ := firstMatch_spec _ _ _ hm
      refine ⟨i, ?_, hp, hmin, ?_⟩
      · simp [locateTermIndex, jsIndexOf, hm]
      · refine ⟨buildTerm chunk start
          (.obj [("term".data, .str termText)]) termText, ?_, ?_, ?_⟩
        · simp [mapRawTerm, termTextProp, jLookup, lookupField, Except.map]
        · simp [buildTerm, locateTermIndex, jsIndexOf, hm]
        · simp [buildTerm, locateTermIndex, jsIndexOf, hm]
  · intro c
    have hlow : lowerStr ("Newton".data) = lowerStr ("newton".data) := by decide
    simp [locateTermIndex, hlow]

theorem C4_locator_first_occurrence_witness :
    (∃ j, (lowerStr "newton".data).isPrefixOf
        ((lowerStr "Isaac Newton laws".data).drop j) = true) ∧
    ((∃ i : Nat,
        locateTermIndex "Isaac Newton laws".data "newton".data = (i : Int) ∧
        (lowerStr "newton".data).isPrefixOf
          ((lowerStr "Isaac Newton laws".data).drop i) = true ∧
        (∀ j, j < i → (lowerStr "newton".data).isPrefixOf
          ((lowerStr "Isaac Newton laws".data).drop j) = false) ∧
        ∃ t : AmbiguousTerm,
          mapRawTerm "Isaac Newton laws".data 500
            (.obj [("term".data, .str "newton".data)]) = .ok t ∧
          t.position_start = (500 : Int) + i ∧
          t.position_end = (500 : Int) + i + ("newton".data).length) ∧
      ∀ c : List Char,
        locateTermIndex c ("newton".data) = locateTermIndex c ("Newton".data)) :=
  ⟨⟨6, by decide⟩,
    C4_locator_first_occurrence "Isaac Newton laws".data "newton".data 500
      ⟨6, by decide⟩⟩

theorem mapM_analyzeChunk_error (classify : AnalysisChunk → ClassifierOutcome) :
    ∀ l : List AnalysisChunk, (∃ c ∈ l, classify c = .callError) →
      l.mapM (analyzeChunk classify) = .error () := by
  intro l
  induction l with
  | nil =>
    rintro ⟨c, hc, -⟩
    exact absurd hc (List.not_mem_nil c)
  | cons a t ih =>
    rintro ⟨c, hc, hce⟩
    rw [List.mapM_cons]
    rcases List.mem_cons.mp hc with rfl | hct
    · have hae : analyzeChunk classify c = .error () := by
        simp [analyzeChunk, hce]
      rw [hae]
      rfl
    · cases hca : classify a with
      | callError =>
        have hae : analyzeChunk classify a = .error () := by
          simp [analyzeChunk, hca]
        rw [hae]
        rfl
      | response content =>
        have ha : analyzeChunk classify a =
            .ok (processResponse a.chunk a.startIndex content).1 := by
          simp [analyzeChunk, hca]
        rw [ha, ih ⟨c, hct, hce⟩]
        rfl

theorem mapM_analyzeChunk_ok (classify : AnalysisChunk → ClassifierOutcome) :
    ∀ l : List AnalysisChunk, (∀ c ∈ l, classify c ≠ .callError) →
      l.mapM (analyzeChunk classify) = .ok (l.map (chunkTerms classify)) := by
  intro l
  induction l with
  | nil => intro _; rfl
  | cons a t ih =>
    intro hall
    rw [List.mapM_cons]
    cases hca : classify a with
    | callError => exact absurd hca (hall a (List.mem_cons_self a t))
    | response content =>
      have ha : analyzeChunk classify a = .ok (chunkTerms classify a) := by
        simp [analyzeChunk, chunkTerms, hca]
      rw [ha, ih (fun c hc => hall c (List.mem_cons_of_mem a hc))]
      rfl

/-- C6: a classifier call that throws on any window makes the whole run
fail with no partial term list; when no call throws, the run completes
and merges the per-window results, and a window whose content is
unparseable contributes zero terms to that merge. -/
theorem C6_fatal_vs_recoverable (classify : AnalysisChunk → ClassifierOutcome)
    (text : List Char) :
    ((∃ c ∈ splitTextIntoChunks text, classify c = .callError) →
       analyzeText classify text = .error ()) ∧
    ((∀ c ∈ splitTextIntoChunks text, classify c ≠ .callError) →
       analyzeText classify text =
         .ok (mergeTerms
           (((splitTextIntoChunks text).map (chunkTerms classify)).flatten))) ∧
    ∀ c : AnalysisChunk, classify c = .response (some (.error ())) →
      chunkTerms classify c = [] := by
  refine ⟨?_, ?_, ?_⟩
  · intro hex
    simp only [analyzeText]
    rw [mapM_analyzeChunk_error classify _ hex]
    rfl
  · intro hall
    simp only [analyzeText]
    rw [mapM_analyzeChunk_ok classify _ hall]
    rfl
  · intro c hc
    simp [chunkTerms, hc, processResponse]

theorem C6_fatal_vs_recoverable_witness :
    (∃ c ∈ splitTextIntoChunks "ab".data,
       (fun _ : AnalysisChunk => ClassifierOutcome.callError) c =
         ClassifierOutcome.callError) ∧
    analyzeText (fun _ => ClassifierOutcome.callError) "ab".data = .error () := by
  have hmem : (⟨"ab".data, 0⟩ : AnalysisChunk) ∈ splitTextIntoChunks "ab".data := by
    decide
  exact ⟨⟨⟨"ab".data, 0⟩, hmem, rfl⟩,
    (C6_fatal_vs_recoverable (fun _ => ClassifierOutcome.callError) "ab".data).1
      ⟨⟨"ab".data, 0⟩, hmem, rfl⟩⟩

theorem assocGet_assocSet (m : List (List Char × AmbiguousTerm))
    (k : List Char) (v : AmbiguousTerm) (k' : List Char) :
    assocGet (assocSet m k v) k' = if k = k' then some v else assocGet m k' := by
  induction m with
  | nil => simp [assocSet, assocGet]
  | cons p rest ih =>
    obtain ⟨k0, w⟩ := p
    simp only [assocSet]
    by_cases h0 : k0 = k
    · rw [if_pos h0]
      subst h0
      simp only [assocGet]
      by_cases h1 : k0 = k' <;> simp [h1]
    · rw [if_neg h0]
      simp only [assocGet]
      by_cases h1 : k0 = k'
      · have hkk : ¬ k = k' := fun hh => h0 (h1.trans hh.symm)
        simp [h1, hkk]
      · simp [h1, ih]

theorem assocGet_mergeStep (m : List (List Char × AmbiguousTerm))
    (t : AmbiguousTerm) (key : List Char) :
    assocGet (mergeStep m t) key =
      if termKey t = key then
        match assocGet m key with
        | none => some t
        | some e => if t.confidence > e.confidence then some t else some e
      else assocGet m key := by
  cases hg : assocGet m (termKey t) with
  | none =>
    have hms : mergeStep m t = assocSet m (termKey t) t := by
      simp [mergeStep, hg]
    rw [hms, assocGet_assocSet]
    by_cases hk : termKey t = key
    · subst hk
      rw [hg]
    · simp [hk]
  | some e =>
    by_cases hc : t.confidence > e.confidence
    · have hms : mergeStep m t = assocSet m (termKey t) t := by
        simp [mergeStep, hg, hc]
      rw [hms, assocGet_assocSet]
      by_cases hk : termKey t = key
      · subst hk
        rw [hg]
        simp [hc]
      · simp [hk]
    · have hms : mergeStep m t = m := by
        simp [mergeStep, hg, hc]
      rw [hms]
      by_cases hk : termKey t = key
      · subst hk
        rw [hg]
        simp [hc]
      · simp [hk]

theorem assocGet_foldl_mergeStep (input : List AmbiguousTerm) :
    ∀ (m : List (List Char × AmbiguousTerm)) (key : List Char),
      assocGet (input.foldl mergeStep m) key =
        input.foldl
          (fun acc t =>
            if termKey t = key then
              match acc with
              | none => some t
              | some e => if t.confidence > e.confidence then some t else acc
            else acc)
          (assocGet m key) := by
  induction input with
  | nil => intro m key; rfl
  | cons t rest ih =>
    intro m key
    rw [List.foldl_cons, List.foldl_cons, ih]
    congr 1
    rw [assocGet_mergeStep]
    cases hacc : assocGet m key <;> rfl

theorem assocGet_merge_eq_firstBest (input : List AmbiguousTerm)
    (key : List Char) :
    assocGet (input.foldl mergeStep []) key = firstBest input key := by
  rw [assocGet_foldl_mergeStep input [] key]
  rfl

theorem assocSet_mem (k : List Char) (v : AmbiguousTerm) :
    ∀ (m : List (List Char × AmbiguousTerm)) (p : List Char × AmbiguousTerm),
      p ∈ assocSet m k v → p ∈ m ∨ p = (k, v) := by
  intro m
  induction m with
  | nil =>
    intro p hp
    simp only [assocSet, List.mem_singleton] at hp
    exact Or.inr hp
  | cons q rest ih =>
    obtain ⟨k0, w⟩ := q
    intro p hp
    by_cases h0 : k0 = k
    · rw [assocSet, if_pos h0] at hp
      rcases List.mem_cons.mp hp with hp | hp
      · exact Or.inr (by rw [hp, h0])
      · exact Or.inl (List.mem_cons_of_mem _ hp)
    · rw [assocSet, if_neg h0] at hp
      rcases List.mem_cons.mp hp with hp | hp
      · exact Or.inl (by rw [hp]; exact List.mem_cons_self _ _)
      · rcases ih p hp with hm | he
        · exact Or.inl (List.mem_cons_of_mem _ hm)
        · exact Or.inr he

theorem assocGet_none_not_mem_keys (k : List Char) :
    ∀ m : List (List Char × AmbiguousTerm),
      assocGet m k = none → k ∉ m.map Prod.fst := by
  intro m
  induction m with
  | nil => intro _; simp
  | cons q rest ih =>
    obtain ⟨k0, w⟩ := q
    intro hg
    simp only [assocGet] at hg
    by_cases h0 : k0 = k
    · rw [if_pos h0] at hg
      exact Option.noConfusion hg
    · rw [if_neg h0] at hg
      simp only [List.map_cons, List.mem_cons]
      rintro (hk | hk)
      · exact h0 hk.symm
      · exact ih hg hk

theorem assocSet_keys (k : List Char) (v : AmbiguousTerm) :
    ∀ m : List (List Char × AmbiguousTerm),
      (assocSet m k v).map Prod.fst = m.map Prod.fst ∨
      (assocSet m k v).map Prod.fst = m.map Prod.fst ++ [k] ∧
        assocGet m k = none := by
  intro m
  induction m with
  | nil => exact Or.inr ⟨rfl, rfl⟩
  | cons q rest ih =>
    obtain ⟨k0, w⟩ := q
    by_cases h0 : k0 = k
    · left
      rw [assocSet, if_pos h0]
      simp
    · rcases ih with h | ⟨h, hg⟩
      · left
        rw [assocSet, if_neg h0]
        simp [h]
      · right
        constructor
        · rw [assocSet, if_neg h0]
          simp [h]
        · rw [assocGet, if_neg h0]
          exact hg

theorem mergeStep_inv (m : List (List Char × AmbiguousTerm)) (t : AmbiguousTerm)
    (hkeys : ∀ p ∈ m, termKey p.2 = p.1)
    (hnodup : (m.map Prod.fst).Nodup) :
    (∀ p ∈ mergeStep m t, termKey p.2 = p.1) ∧
    ((mergeStep m t).map Prod.fst).Nodup := by
  have hset : ∀ p ∈ assocSet m (termKey t) t, termKey p.2 = p.1 := by
    intro p hp
    rcases assocSet_mem (termKey t) t m p hp with hm | he
    · exact hkeys p hm
    · rw [he]
  have hsetnd : ((assocSet m (termKey t) t).map Prod.fst).Nodup := by
    rcases assocSet_keys (termKey t) t m with h | ⟨h, hg⟩
    · rw [h]
      exact hnodup
    · rw [h]
      have hnm := assocGet_none_not_mem_keys (termKey t) m hg
      rw [List.nodup_append]
      refine ⟨hnodup, List.nodup_singleton _, ?_⟩
      intro a ha hb
      rw [List.mem_singleton] at hb
      exact hnm (hb ▸ ha)
  cases hg : assocGet m (termKey t) with
  | none =>
    have hms : mergeStep m t = assocSet m (termKey t) t := by
      simp [mergeStep, hg]
    rw [hms]
    exact ⟨hset, hsetnd⟩
  | some e =>
    by_cases hc : t.confidence > e.confidence
    · have hms : mergeStep m t = assocSet m (termKey t) t := by
        simp [mergeStep, hg, hc]
      rw [hms]
      exact ⟨hset, hsetnd⟩
    · have hms : mergeStep m t = m := by
        simp [mergeStep, hg, hc]
      rw [hms]
      exact ⟨hkeys, hnodup⟩

theorem foldl_mergeStep_inv (input : List AmbiguousTerm) :
    ∀ m : List (List Char × AmbiguousTerm),
      (∀ p ∈ m, termKey p.2 = p.1) → (m.map Prod.fst).Nodup →
      (∀ p ∈ input.foldl mergeStep m, termKey p.2 = p.1) ∧
      ((input.foldl mergeStep m).map Prod.fst).Nodup := by
  induction input with
  | nil => intro m h1 h2; exact ⟨h1, h2⟩
  | cons t rest ih =>
    intro m h1 h2
    rw [List.foldl_cons]
    obtain ⟨h1', h2'⟩ := mergeStep_inv m t h1 h2
    exact ih (mergeStep m t) h1' h2'

theorem valuesFilter (key : List Char) :
    ∀ m : List (List Char × AmbiguousTerm),
      (∀ p ∈ m, termKey p.2 = p.1) → (m.map Prod.fst).Nodup →
      (m.map Prod.snd).filter (fun v => decide (termKey v = key)) =
        (assocGet m key).toList := by
  intro m
  induction m with
  | nil => intro _ _; rfl
  | cons p rest ih =>
    obtain ⟨k0, v0⟩ := p
    intro hkeys hnodup
    have hk0 : termKey v0 = k0 := hkeys (k0, v0) (List.mem_cons_self _ _)
    rw [List.map_cons, List.nodup_cons] at hnodup
    by_cases h : k0 = key
    · subst h
      have hrest : (rest.map Prod.snd).filter
          (fun v => decide (termKey v = k0)) = [] := by
        rw [List.filter_eq_nil_iff]
        intro v hv
        obtain ⟨q, hq, hqv⟩ := List.mem_map.mp hv
        simp only [decide_eq_true_eq]
        intro heq
        rw [← hqv, hkeys q (List.mem_cons_of_mem _ hq)] at heq
        exact hnodup.1 (heq ▸ List.mem_map.mpr ⟨q, hq, rfl⟩)
      simp [assocGet, List.filter, hk0, hrest]
    · have hne : ¬ termKey v0 = key := by rw [hk0]; exact h
      have ih' := ih (fun q hq => hkeys q (List.mem_cons_of_mem _ hq)) hnodup.2
      simp [assocGet, List.filter, hne, h, ih']

theorem insertByPos_perm (t : AmbiguousTerm) :
    ∀ l : List AmbiguousTerm, (insertByPos t l).Perm (t :: l) := by
  intro l
  induction l with
  | nil => exact List.Perm.refl _
  | cons u rest ih =>
    simp only [insertByPos]
    by_cases h : t.position_start ≤ u.position_start
    · rw [if_pos h]
    · rw [if_neg h]
      exact (List.Perm.cons u ih).trans (List.Perm.swap t u rest)

theorem sortByPos_perm : ∀ l : List AmbiguousTerm, (sortByPos l).Perm l := by
  intro l
  induction l with
  | nil => exact List.Perm.refl _
  | cons t rest ih =>
    simp only [sortByPos]
    exact (insertByPos_perm t _).trans (List.Perm.cons t ih)

theorem insertByPos_sorted (t : AmbiguousTerm) :
    ∀ l : List AmbiguousTerm,
      List.Pairwise (fun a b => a.position_start ≤ b.position_start) l →
      List.Pairwise (fun a b => a.position_start ≤ b.position_start)
        (insertByPos t l) := by
  intro l
  induction l with
  | nil => intro _; simp [insertByPos]
  | cons u rest ih =>
    intro hp
    obtain ⟨hu, hrest⟩ := List.pairwise_cons.mp hp
    simp only [insertByPos]
    by_cases h : t.position_start ≤ u.position_start
    · rw [if_pos h]
      refine List.pairwise_cons.mpr ⟨?_, hp⟩
      intro b hb
      rcases List.mem_cons.mp hb with hb' | hb'
      · rw [hb']
        exact h
      · exact le_trans h (hu b hb')
    · rw [if_neg h]
      refine List.pairwise_cons.mpr ⟨?_, ih hrest⟩
      intro b hb
      have hb2 := (insertByPos_perm t rest).mem_iff.mp hb
      rcases List.mem_cons.mp hb2 with hb' | hb'
      · rw [hb']
        exact le_of_not_le h
      · exact hu b hb'

theorem sortByPos_sorted :
    ∀ l : List AmbiguousTerm,
      List.Pairwise (fun a b => a.position_start ≤ b.position_start)
        (sortByPos l) := by
  intro l
  induction l with
  | nil => simp [sortByPos]
  | cons t rest ih =>
    simp only [sortByPos]
    exact insertByPos_sorted t _ ih

theorem perm_eq_of_length_le_one {l₁ l₂ : List AmbiguousTerm}
    (hp : l₁.Perm l₂) (hl : l₂.length ≤ 1) : l₁ = l₂ := by
  cases l₂ with
  | nil => exact hp.eq_nil
  | cons a tl =>
    cases tl with
    | nil => exact List.perm_singleton.mp hp
    | cons b tl' => simp at hl

/-- C3: the merge keeps at most one Term per lowercased-term key —
filtering the merged output for any key yields exactly the first-seen
maximal-confidence input Term of that key (a strictly higher confidence
replaces, an exact tie keeps the earlier Term unchanged); the output is
ordered by ascending `position_start`; and merging the Force/force
example yields exactly the confidence-85 Term, placed by its own
`position_start` 1500. -/
theorem C3_merge_dedup_policy :
    (∀ (input : List AmbiguousTerm) (key : List Char),
       (mergeTerms input).filter (fun t => decide (termKey t = key)) =
         (firstBest input key).toList) ∧
    (∀ input : List AmbiguousTerm,
       List.Pairwise (fun a b => a.position_start ≤ b.position_start)
         (mergeTerms input)) ∧
    mergeTerms [forceDetection60, forceDetection85] = [forceDetection85] := by
  refine ⟨?_, ?_, rfl⟩
  · intro input key
    obtain ⟨hkeys, hnodup⟩ :=
      foldl_mergeStep_inv input [] (by simp) (by simp)
    have hv := valuesFilter key (input.foldl mergeStep []) hkeys hnodup
    have hget := assocGet_merge_eq_firstBest input key
    have hperm :
        ((sortByPos ((input.foldl mergeStep []).map Prod.snd)).filter
            (fun t => decide (termKey t = key))).Perm
          (((input.foldl mergeStep []).map Prod.snd).filter
            (fun t => decide (termKey t = key))) :=
      (sortByPos_perm _).filter _
    rw [hv, hget] at hperm
    have hlen : (firstBest input key).toList.length ≤ 1 := by
      cases firstBest input key <;> simp
    exact perm_eq_of_length_le_one hperm hlen
  · intro input
    exact sortByPos_sorted _

theorem splitChunksLoop_main (cs os : Nat) (text : List Char) (hos : os < cs) :
    ∀ fuel s, s < text.length → text.length - s ≤ fuel →
      (∃ rest, splitChunksLoop cs os text fuel s =
         ⟨(text.drop s).take (min (s + cs) text.length - s), s⟩ :: rest) ∧
      (∀ c ∈ splitChunksLoop cs os text fuel s, s ≤ c.startIndex) ∧
      List.Chain'
        (fun a b => b.startIndex = min (a.startIndex + cs) text.length - os)
        (splitChunksLoop cs os text fuel s) ∧
      List.Pairwise (fun a b => a.startIndex < b.startIndex)
        (splitChunksLoop cs os text fuel s) ∧
      (∀ p, s ≤ p → p < text.length →
        ∃ c ∈ splitChunksLoop cs os text fuel s,
          c.startIndex ≤ p ∧ p < c.startIndex + c.chunk.length) := by
  intro fuel
  induction fuel with
  | zero =>
    intro s hs hf
    omega
  | succ fuel ih =>
    intro s hs hf
    rw [splitChunksLoop_succ, if_pos hs]
    by_cases hend : text.length ≤ min (s + cs) text.length
    · rw [if_pos hend]
      have hchunklen :
          ((text.drop s).take (min (s + cs) text.length - s)).length =
            min (s + cs) text.length - s := by
        rw [List.length_take, List.length_drop]
        omega
      refine ⟨⟨[], rfl⟩, ?_, List.chain'_singleton _, List.pairwise_singleton _ _, ?_⟩
      · intro c hc
        rw [List.mem_singleton] at hc
        rw [hc]
      · intro p hsp hplen
        refine ⟨⟨(text.drop s).take (min (s + cs) text.length - s), s⟩,
          List.mem_singleton.mpr rfl, hsp, ?_⟩
        show p < s + ((text.drop s).take (min (s + cs) text.length - s)).length
        rw [hchunklen]
        omega
    · rw [if_neg hend]
      push_neg at hend
      have hs' : min (s + cs) text.length - os < text.length := by omega
      have hf' : text.length - (min (s + cs) text.length - os) ≤ fuel := by omega
      obtain ⟨⟨rest, hrest⟩, hlb, hchain, hpw, hcov⟩ :=
        ih (min (s + cs) text.length - os) hs' hf'
      refine ⟨⟨_, rfl⟩, ?_, ?_, ?_, ?_⟩
      · intro c hc
        rcases List.mem_cons.mp hc with hc' | hc'
        · rw [hc']
        · have := hlb c hc'
          omega
      · rw [hrest]
        rw [hrest] at hchain
        exact List.chain'_cons.mpr ⟨rfl, hchain⟩
      · refine List.pairwise_cons.mpr ⟨?_, hpw⟩
        intro b hb
        have := hlb b hb
        show s < b.startIndex
        omega
      · intro p hsp hplen
        by_cases hpe : p < min (s + cs) text.length
        · refine ⟨⟨(text.drop s).take (min (s + cs) text.length - s), s⟩,
            List.mem_cons_self _ _, hsp, ?_⟩
          show p < s + ((text.drop s).take (min (s + cs) text.length - s)).length
          rw [List.length_take, List.length_drop]
          omega
        · push_neg at hpe
          obtain ⟨c, hcmem, hc1, hc2⟩ := hcov p (by omega) hplen
          exact ⟨c, List.mem_cons_of_mem _ hcmem, hc1, hc2⟩

/-- C2: for every document and positive configuration with
`overlapSize < chunkSize`, the produced windows have strictly
increasing start offsets, the first window (when the document is
nonempty there is one) starts at 0, each subsequent window starts at
`previous_end - overlapSize` with
`previous_end = min(previous_start + chunkSize, len)`, and the window
spans jointly cover `[0, len)` with no gaps. -/
theorem C2_chunk_coverage (cs os : Nat) (text : List Char)
    (hcs : 0 < cs) (hos0 : 0 < os) (hos : os < cs) :
    (∀ c, (splitTextIntoChunksWith cs os text).head? = some c →
       c.startIndex = 0) ∧
    List.Pairwise (fun a b => a.startIndex < b.startIndex)
      (splitTextIntoChunksWith cs os text) ∧
    List.Chain'
      (fun a b => b.startIndex = min (a.startIndex + cs) text.length - os)
      (splitTextIntoChunksWith cs os text) ∧
    (∀ p, p < text.length → ∃ c ∈ splitTextIntoChunksWith cs os text,
      c.startIndex ≤ p ∧ p < c.startIndex + c.chunk.length) := by
  by_cases hlen : text.length = 0
  · have hnil : splitTextIntoChunksWith cs os text = [] := by
      rw [splitTextIntoChunksWith, splitChunksLoop_succ, if_neg (by omega)]
    rw [hnil]
    refine ⟨?_, List.Pairwise.nil, List.chain'_nil, ?_⟩
    · intro c hc
      exact Option.noConfusion hc
    · intro p hp
      omega
  · have h0 : 0 < text.length := Nat.pos_of_ne_zero hlen
    obtain ⟨⟨rest, hrest⟩, hlb, hchain, hpw, hcov⟩ :=
      splitChunksLoop_main cs os text hos (text.length + 1) 0 h0 (by omega)
    rw [splitTextIntoChunksWith]
    refine ⟨?_, hpw, hchain, ?_⟩
    · intro c hc
      rw [hrest] at hc
      rw [List.head?_cons, Option.some.injEq] at hc
      rw [← hc]
    · intro p hp
      exact hcov p (Nat.zero_le p) hp

theorem C2_chunk_coverage_witness :
    ((0 : Nat) < 3000 ∧ (0 : Nat) < 200 ∧ 200 < 3000) ∧
    ((∀ c, (splitTextIntoChunksWith 3000 200 "hello".data).head? = some c →
        c.startIndex = 0) ∧
     List.Pairwise (fun a b => a.startIndex < b.startIndex)
       (splitTextIntoChunksWith 3000 200 "hello".data) ∧
     List.Chain'
       (fun a b => b.startIndex =
         min (a.startIndex + 3000) ("hello".data).length - 200)
       (splitTextIntoChunksWith 3000 200 "hello".data) ∧
     (∀ p, p < ("hello".data).length →
       ∃ c ∈ splitTextIntoChunksWith 3000 200 "hello".data,
         c.startIndex ≤ p ∧ p < c.startIndex + c.chunk.length)) :=
  ⟨⟨by decide, by decide, by decide⟩,
    C2_chunk_coverage 3000 200 "hello".data (by decide) (by decide) (by decide)⟩
